import Mathlib

/-!
Verification of the artudis-oadoi-report pipeline (Go): a shallow embedding of
the record types, the enrichment client `doAPIRequest` with its ticket-channel
admission gate, the per-line dispatch `processPublication`, the CSV writer
`processOutput`, the line scanner of `processFile`, and the pure helper
`makeSherpaLink`.  Strings manipulated byte-wise in Go are modelled as
`List Char` (the inputs involved are ASCII); the external HTTP transport and
the stdlib JSON parser are modelled as oracle parameters; a Go runtime panic
is modelled as `Option.none`.
-/

namespace Oadoi

/- Data model, following the type declarations of src/main.go and
src/unnamed/part_001 (identical there). -/

structure IdentifierEntry where
  Scheme : String := ""
  Value : String := ""
  deriving DecidableEq

structure AttachmentEntry where
  OpenAccess : String := ""
  BlobKey : String := ""
  ExternalURL : Option String := none
  Ty : String := ""
  deriving DecidableEq

structure Publication where
  Identifier : List IdentifierEntry := []
  ID : String := ""
  Ty : String := ""
  Attachment : List AttachmentEntry := []
  deriving DecidableEq

structure OaLocation where
  Evidence : String := ""
  HostType : String := ""
  ID : String := ""
  URL : String := ""
  URLForLandingPage : String := ""
  URLForPdf : String := ""
  Version : String := ""
  deriving DecidableEq

structure APIResponseBody where
  BestOaLocation : OaLocation := {}
  DataStandard : Int := 0
  Doi : String := ""
  DoiURL : String := ""
  IsOa : Bool := false
  JournalIsOa : Bool := false
  JournalIssns : String := ""
  JournalName : String := ""
  Publisher : String := ""
  Title : String := ""
  Updated : String := ""
  Year : Int := 0
  deriving DecidableEq

structure APIResponse where
  HTTPStatus : String := ""
  body : APIResponseBody := {}
  JSONDecodeError : String := ""
  GETError : String := ""
  deriving DecidableEq

structure Record extends Publication where
  APIResponses : List APIResponse := []
  deriving DecidableEq

def OADOIURL : String := "https://api.oadoi.org/v2/"

def DXDOIURL : String := "http://dx.doi.org/"

def SHERPAURI : List Char := "http://www.sherpa.ac.uk/romeo/issn/".data

/- The admission gate of processFile: a channel `ticketToHTTP` of capacity N
pre-filled with N tokens.  A receive (acquire) is enabled only when a token is
buffered; a send (release) is enabled only when the buffer is not full.  Each
goroutine is abstracted to its remaining gate-event trace. -/

inductive GateEvent where
  | acquire
  | release
  deriving DecidableEq

structure SemState where
  occ : Nat
  gs : List (List GateEvent)

inductive SemStep (N : Nat) : SemState → SemState → Prop where
  | acq (occ : Nat) (l r : List (List GateEvent)) (rest : List GateEvent) :
      SemStep N ⟨occ + 1, l ++ (GateEvent.acquire :: rest) :: r⟩ ⟨occ, l ++ rest :: r⟩
  | rel (occ : Nat) (l r : List (List GateEvent)) (rest : List GateEvent) (h : occ < N) :
      SemStep N ⟨occ, l ++ (GateEvent.release :: rest) :: r⟩ ⟨occ + 1, l ++ rest :: r⟩

def initSem (N M : Nat) : SemState :=
  ⟨N, List.replicate M [GateEvent.acquire, GateEvent.release]⟩

def SemReach (N M : Nat) (s : SemState) : Prop :=
  Relation.ReflTransGen (SemStep N) (initSem N M) s

def inflight (s : SemState) : Nat :=
  s.gs.count [GateEvent.release]

def GoodTrace (g : List GateEvent) : Prop :=
  g = [GateEvent.acquire, GateEvent.release] ∨ g = [GateEvent.release] ∨ g = []

def GateInv (N : Nat) (s : SemState) : Prop :=
  (∀ g ∈ s.gs, GoodTrace g) ∧ s.occ + inflight s = N

/- The enrichment client doAPIRequest.  The HTTP transport is an oracle
mapping the request URL to an outcome: a transport error, or a status line
together with the JSON decode result of the response body.  The second
component of the result is the trace of gate events the call performs:
the ticket receive, then (on every return path, via defer) the ticket send. -/

inductive HTTPOutcome where
  | getError (msg : String)
  | response (status : String) (decoded : Except String APIResponseBody)

def trimDXDOI (doi : String) : String :=
  if doi.startsWith DXDOIURL then doi.drop DXDOIURL.length else doi

def requestURL (doi email : String) : String :=
  OADOIURL ++ trimDXDOI doi ++ "?email=" ++ email

def doAPIRequest (doi email : String) (http : String → HTTPOutcome) :
    APIResponse × List GateEvent :=
  match http (requestURL doi email) with
  | HTTPOutcome.getError msg =>
      ({ GETError := msg }, [GateEvent.acquire, GateEvent.release])
  | HTTPOutcome.response status (Except.error msg) =>
      ({ HTTPStatus := status, JSONDecodeError := msg },
       [GateEvent.acquire, GateEvent.release])
  | HTTPOutcome.response status (Except.ok b) =>
      ({ HTTPStatus := status, body := b }, [GateEvent.acquire, GateEvent.release])

/- processPublication: json.Unmarshal is stdlib, modelled as a parse oracle;
on parse failure the goroutine logs and returns, publishing nothing.  The
loop over identifiers appends one lookup result per identifier with scheme
"doi", in order. -/

def collectAPIResponses (lookup : String → APIResponse) :
    List IdentifierEntry → List APIResponse
  | [] => []
  | i :: rest =>
      if i.Scheme = "doi" then lookup i.Value :: collectAPIResponses lookup rest
      else collectAPIResponses lookup rest

def processPublication (parse : List Char → Option Publication)
    (lookup : String → APIResponse) (line : List Char) : Option Record :=
  match parse line with
  | none => none
  | some pub =>
      some { toPublication := pub,
             APIResponses := collectAPIResponses lookup pub.Identifier }

/- processOutput (src/main.go 132-197): derived per-record fields and one CSV
row per APIResponse.  Go map access for an absent key yields the zero value 0. -/

def boolString (b : Bool) : String := if b then "true" else "false"

def attachmentTypeToWeightMap (t : String) : Nat :=
  if t = "missing" then 0
  else if t = "other" then 1
  else if t = "submittedManuscript" then 2
  else if t = "acceptedManuscript" then 3
  else if t = "finalVersion" then 4
  else 0

def derivedOA : List AttachmentEntry → Bool → String → Bool × String
  | [], oa, best => (oa, best)
  | att :: rest, oa, best =>
      if att.OpenAccess = "true" then
        derivedOA rest true
          (if attachmentTypeToWeightMap att.Ty > attachmentTypeToWeightMap best
           then att.Ty else best)
      else derivedOA rest oa best

def maxOAWeight : List AttachmentEntry → Nat
  | [] => 0
  | att :: rest =>
      if att.OpenAccess = "true" then
        max (attachmentTypeToWeightMap att.Ty) (maxOAWeight rest)
      else maxOAWeight rest

def toCSVRow (pub : Publication) (oa : Bool) (best : String) (a : APIResponse) :
    List String :=
  [boolString a.body.IsOa, boolString oa, best, pub.ID,
   a.body.BestOaLocation.URL, a.body.BestOaLocation.Version, pub.Ty,
   a.HTTPStatus, a.JSONDecodeError, a.GETError, a.body.Doi, a.body.Title]

def recordRows (r : Record) : List (List String) :=
  let d := derivedOA r.toPublication.Attachment false "missing"
  r.APIResponses.map (toCSVRow r.toPublication d.1 d.2)

/- The writer loop with a fallible row write: `ok n` tells whether writing the
n-th row (counted across the whole file) succeeds.  On the first failure the
Go code logs and returns from processOutput, abandoning both loops; rows
written before the failure are kept. -/

def writeRows (ok : Nat → Bool) : List (List String) → Nat → List (List String) × Bool
  | [], _ => ([], true)
  | row :: rest, n =>
      if ok n then
        let p := writeRows ok rest (n + 1)
        (row :: p.1, p.2)
      else ([], false)

def writeRecords (ok : Nat → Bool) : List Record → Nat → List (List String) × Bool
  | [], _ => ([], true)
  | rec :: rest, n =>
      let p := writeRows ok (recordRows rec) n
      if p.2 then
        let q := writeRecords ok rest (n + p.1.length)
        (p.1 ++ q.1, q.2)
      else (p.1, false)

/- writerConsumed: how many records the writer receives from the unbuffered
output channel before returning.  The writer receives a record at the loop
head and only then writes its rows; a row-write failure makes it return
without receiving further records, so the record being written counts as
received and the later ones do not. -/

def writerConsumed (ok : Nat → Bool) : List Record → Nat → Nat
  | [], _ => 0
  | rec :: rest, n =>
      let p := writeRows ok (recordRows rec) n
      if p.2 then writerConsumed ok rest (n + p.1.length) + 1 else 1

/- main's loop over files, processFile called synchronously for each.  When
the writer returns early with records still unreceived, the goroutines that
hold those records stay blocked forever sending on the unbuffered output
channel, waitgroupLines.Wait() in processFile never returns, and main never
reaches the next file: the loop only proceeds past a file when the writer
received every record of that file (in particular when the failing write, if
any, hit the file's last record).  The Bool records whether the whole batch
ran to completion or hung. -/

def runBatch : List (List Record × (Nat → Bool)) → List (List (List String)) × Bool
  | [] => ([], true)
  | f :: rest =>
      if writerConsumed f.2 f.1 0 = f.1.length then
        let q := runBatch rest
        ((writeRecords f.2 f.1 0).1 :: q.1, q.2)
      else ([(writeRecords f.2 f.1 0).1], false)

/- The per-file pipeline, record arrival order modelled as line order: a line
whose parse fails publishes nothing (processPublication returns none). -/

def pipelineRecords (parse : List Char → Option Publication)
    (lookup : String → APIResponse) (lines : List (List Char)) : List Record :=
  lines.filterMap (processPublication parse lookup)

def pipelineRows (parse : List Char → Option Publication)
    (lookup : String → APIResponse) (lines : List (List Char)) : List (List String) :=
  List.flatten ((pipelineRecords parse lookup lines).map recordRows)

/- The line scanner of processFile (src/unnamed/part_001 114-126):
bufio.Scanner with a buffer capped at 32 MiB.  A line longer than the cap
makes Scan stop with bufio.ErrTooLong; part_001 then calls log.Fatalln,
modelled as none.  The Bool is true when the whole file was scanned. -/

def sherpaLoop : List (List Char) → Option (List (List Char))
  | [] => some []
  | issn :: rest =>
      if issn = [] then sherpaLoop rest
      else if h : 4 < issn.length then
        if issn.get ⟨4, h⟩ = '-' ∧ issn.length = 9 then
          (sherpaLoop rest).map (fun ls => (SHERPAURI ++ issn ++ ['/']) :: ls)
        else if issn.length = 8 then
          (sherpaLoop rest).map
            (fun ls => (SHERPAURI ++ issn.take 4 ++ '-' :: ((issn.drop 4).take 4 ++ ['/'])) :: ls)
        else sherpaLoop rest
      else none

def makeSherpaLink (issns : List Char) : Option (List Char) :=
  if issns = [] then some []
  else (sherpaLoop (issns.splitOn ',')).map (fun links => [','].intercalate links)

/- Concrete inputs used by witnesses and counterexamples. -/

def httpGetErrW : String → HTTPOutcome :=
  fun _ => HTTPOutcome.getError "connection refused"

def httpDecodeErrW : String → HTTPOutcome :=
  fun _ => HTTPOutcome.response "200 OK" (Except.error "invalid character")

def httpOkW : String → HTTPOutcome :=
  fun _ => HTTPOutcome.response "200 OK" (Except.ok {})

def c4CexAtts : List AttachmentEntry := [{ OpenAccess := "true", Ty := "missing" }]

def c4WAtts : List AttachmentEntry := [{ OpenAccess := "true", Ty := "other" }]

def pubW : Publication :=
  { Identifier := [{ Scheme := "doi", Value := "10.1/x" },
                   { Scheme := "isbn", Value := "z" },
                   { Scheme := "doi", Value := "10.2/y" }],
    ID := "pub1", Ty := "article", Attachment := [] }

def parseW : List Char → Option Publication := fun _ => some pubW

def parseEmptyFailsW : List Char → Option Publication :=
  fun l => if l = [] then none else some pubW

def lookupW : String → APIResponse :=
  fun d => { HTTPStatus := "200 OK", body := { Doi := d } }

def c7WLines : List (List Char) := [['a'], []]

def recW : Record :=
  { toPublication := pubW,
    APIResponses := [{ HTTPStatus := "200 OK" }, { GETError := "boom" }] }

def okW : Nat → Bool := fun n => n == 0

def c8CexFiles : List (List Record × (Nat → Bool)) :=
  [([recW, recW], okW), ([recW], fun _ => true)]

def goodFilesW : List (List Record × (Nat → Bool)) :=
  [([recW], fun _ => true)]

def sherpaIssnEx : List Char := "1234-5678".data

def sherpaLinkEx : List Char := SHERPAURI ++ "1234-5678/".data

/- ------------------------------------------------------------------ -/
/- Theorems. -/

theorem sherpaLoop_total (segs : List (List Char))
    (h : ∀ seg ∈ segs, seg ≠ [] → 5 ≤ seg.length) :
    ∃ ls, sherpaLoop segs = some ls := by
  induction segs with
  | nil => exact ⟨[], rfl⟩
  | cons issn rest ih =>
    obtain ⟨ls, hls⟩ := ih (fun seg hs => h seg (List.mem_cons_of_mem _ hs))
    by_cases he : issn = []
    · exact ⟨ls, by simp [sherpaLoop, he, hls]⟩
    · have hlen : 5 ≤ issn.length := h issn (List.mem_cons_self _ _) he
      have h4 : 4 < issn.length := hlen
      by_cases hc1 : issn[4] = '-' ∧ issn.length = 9
      · exact ⟨(SHERPAURI ++ issn ++ ['/']) :: ls,
          by simp [sherpaLoop, he, h4, hc1, hls]⟩
      · by_cases hc2 : issn.length = 8
        · exact ⟨(SHERPAURI ++ issn.take 4 ++ '-' :: ((issn.drop 4).take 4 ++ ['/'])) :: ls,
            by simp [sherpaLoop, he, h4, hc1, hc2, hls]⟩
        · exact ⟨ls, by simp [sherpaLoop, he, h4, hc1, hc2, hls]⟩

/-- Claim C5: makeSherpaLink satisfies the four concrete equations of the test
table: the empty string maps to the empty string; a hyphenated 9-character
ISSN maps to the registry link; an 8-character ISSN gets a hyphen inserted
after position 4; a comma-joined input maps to the comma-joined links. -/
theorem sherpaLink_test_equations :
    makeSherpaLink "".data = some "".data ∧
    makeSherpaLink "1234-5678".data = some (SHERPAURI ++ "1234-5678/".data) ∧
    makeSherpaLink "12345678".data = some (SHERPAURI ++ "1234-5678/".data) ∧
    makeSherpaLink "12345678,abcd-efgh".data =
      some (SHERPAURI ++ "1234-5678/".data ++ ',' :: (SHERPAURI ++ "abcd-efgh/".data)) := by
  refine ⟨by decide, by decide, by decide, by decide⟩

/-- Claim C10 counterexample: on the input "abc" (one non-empty comma segment
of length 3), makeSherpaLink evaluates the byte index issn[4] out of bounds
(the index is evaluated before the length-9 test), so the call panics; the
panic is modelled as none. -/
theorem sherpaLink_panics_on_short_segment :
    makeSherpaLink "abc".data = none := by decide

/-- Claim C10 amended: makeSherpaLink is total on every input whose non-empty
comma-separated segments all have length at least 5; there the index issn[4]
is in bounds and the function returns. -/
theorem sherpaLink_total_on_long_segments (issns : List Char)
    (h : ∀ seg ∈ issns.splitOn ',', seg ≠ [] → 5 ≤ seg.length) :
    ∃ t, makeSherpaLink issns = some t := by
  by_cases he : issns = []
  · exact ⟨[], by simp [makeSherpaLink, he]⟩
  · obtain ⟨ls, hls⟩ := sherpaLoop_total _ h
    exact ⟨[','].intercalate ls, by simp [makeSherpaLink, he, hls]⟩

theorem sherpaLink_total_on_long_segments_w :
    ∃ t, makeSherpaLink "1234-5678".data = some t :=
  sherpaLink_total_on_long_segments "1234-5678".data (by decide)

/-- Claim C6 counterexample: makeSherpaLink is not idempotent: on "1234-5678"
it returns the registry link, and applying it again to that link returns the
empty string, not the link itself. -/
theorem sherpaLink_not_idempotent :
    makeSherpaLink sherpaIssnEx = some sherpaLinkEx ∧
    makeSherpaLink sherpaLinkEx = some [] ∧ sherpaLinkEx ≠ [] := by
  refine ⟨by decide, by decide, by decide⟩

theorem derivedOA_step (att : AttachmentEntry) (rest : List AttachmentEntry)
    (oa : Bool) (cur : String) (hOA : att.OpenAccess = "true") :
    derivedOA (att :: rest) oa cur =
      derivedOA rest true
        (if attachmentTypeToWeightMap att.Ty > attachmentTypeToWeightMap cur
         then att.Ty else cur) := by
  simp [derivedOA, hOA]

theorem derivedOA_skip (att : AttachmentEntry) (rest : List AttachmentEntry)
    (oa : Bool) (cur : String) (hOA : ¬ att.OpenAccess = "true") :
    derivedOA (att :: rest) oa cur = derivedOA rest oa cur := by
  simp [derivedOA, hOA]

theorem derivedOA_weight (atts : List AttachmentEntry) :
    ∀ oa cur, attachmentTypeToWeightMap (derivedOA atts oa cur).2 =
      max (attachmentTypeToWeightMap cur) (maxOAWeight atts) := by
  induction atts with
  | nil => intro oa cur; simp [derivedOA, maxOAWeight]
  | cons att rest ih =>
    intro oa cur
    by_cases hOA : att.OpenAccess = "true"
    · rw [derivedOA_step att rest oa cur hOA, ih]
      have hm : maxOAWeight (att :: rest) =
          max (attachmentTypeToWeightMap att.Ty) (maxOAWeight rest) := by
        simp [maxOAWeight, hOA]
      rw [hm]
      by_cases hgt : attachmentTypeToWeightMap cur < attachmentTypeToWeightMap att.Ty
      · simp only [if_pos hgt]
        omega
      · simp only [if_neg hgt]
        omega
    · rw [derivedOA_skip att rest oa cur hOA, ih]
      have hm : maxOAWeight (att :: rest) = maxOAWeight rest := by
        simp [maxOAWeight, hOA]
      rw [hm]

theorem derivedOA_no_adoption (atts : List AttachmentEntry) :
    ∀ oa cur, maxOAWeight atts ≤ attachmentTypeToWeightMap cur →
      (derivedOA atts oa cur).2 = cur := by
  induction atts with
  | nil => intro oa cur _; rfl
  | cons att rest ih =>
    intro oa cur hle
    by_cases hOA : att.OpenAccess = "true"
    · have hm : maxOAWeight (att :: rest) =
          max (attachmentTypeToWeightMap att.Ty) (maxOAWeight rest) := by
        simp [maxOAWeight, hOA]
      rw [hm] at hle
      rw [derivedOA_step att rest oa cur hOA]
      have hgt : ¬ attachmentTypeToWeightMap cur < attachmentTypeToWeightMap att.Ty := by
        omega
      rw [if_neg hgt]
      exact ih true cur (by omega)
    · have hm : maxOAWeight (att :: rest) = maxOAWeight rest := by
        simp [maxOAWeight, hOA]
      rw [hm] at hle
      rw [derivedOA_skip att rest oa cur hOA]
      exact ih oa cur hle

theorem derivedOA_fst_sticky (atts : List AttachmentEntry) :
    ∀ cur, (derivedOA atts true cur).1 = true := by
  induction atts with
  | nil => intro cur; rfl
  | cons att rest ih =>
    intro cur
    by_cases hOA : att.OpenAccess = "true"
    · rw [derivedOA_step att rest true cur hOA]; exact ih _
    · rw [derivedOA_skip att rest true cur hOA]; exact ih _

theorem derivedOA_fst_iff (atts : List AttachmentEntry) :
    ∀ cur, (derivedOA atts false cur).1 = true ↔
      ∃ att ∈ atts, att.OpenAccess = "true" := by
  induction atts with
  | nil => intro cur; simp [derivedOA]
  | cons att rest ih =>
    intro cur
    by_cases hOA : att.OpenAccess = "true"
    · rw [derivedOA_step att rest false cur hOA]
      simp [derivedOA_fst_sticky, hOA]
    · rw [derivedOA_skip att rest false cur hOA]
      simp [ih, hOA]

theorem maxOAWeight_eq_zero_iff (atts : List AttachmentEntry) :
    maxOAWeight atts = 0 ↔
      ∀ att ∈ atts, att.OpenAccess = "true" →
        attachmentTypeToWeightMap att.Ty = 0 := by
  induction atts with
  | nil => simp [maxOAWeight]
  | cons att rest ih =>
    by_cases hOA : att.OpenAccess = "true"
    · rw [show maxOAWeight (att :: rest) =
          max (attachmentTypeToWeightMap att.Ty) (maxOAWeight rest) from by
        simp [maxOAWeight, hOA]]
      rw [Nat.max_eq_zero_iff, ih]
      constructor
      · rintro ⟨h0, hz⟩ x hx hxOA
        rcases List.mem_cons.mp hx with h | h
        · rw [h]; exact h0
        · exact hz x h hxOA
      · intro hz
        exact ⟨hz att (List.mem_cons_self _ _) hOA,
          fun x hx hxOA => hz x (List.mem_cons_of_mem _ hx) hxOA⟩
    · rw [show maxOAWeight (att :: rest) = maxOAWeight rest from by
        simp [maxOAWeight, hOA]]
      rw [ih]
      constructor
      · intro hz x hx hxOA
        rcases List.mem_cons.mp hx with h | h
        · rw [h] at hxOA; exact absurd hxOA hOA
        · exact hz x h hxOA
      · intro hz x hx hxOA
        exact hz x (List.mem_cons_of_mem _ hx) hxOA

theorem derivedOA_first_attainer (atts : List AttachmentEntry) :
    ∀ oa cur, attachmentTypeToWeightMap cur < maxOAWeight atts →
      ∃ l att r, atts = l ++ att :: r ∧ att.OpenAccess = "true" ∧
        attachmentTypeToWeightMap att.Ty = maxOAWeight atts ∧
        (∀ a ∈ l, a.OpenAccess = "true" →
          attachmentTypeToWeightMap a.Ty < maxOAWeight atts) ∧
        (derivedOA atts oa cur).2 = att.Ty := by
  induction atts with
  | nil => intro oa cur hlt; simp [maxOAWeight] at hlt
  | cons a rest ih =>
    intro oa cur hlt
    by_cases hOA : a.OpenAccess = "true"
    · have hm : maxOAWeight (a :: rest) =
          max (attachmentTypeToWeightMap a.Ty) (maxOAWeight rest) := by
        simp [maxOAWeight, hOA]
      by_cases h1 : maxOAWeight rest ≤ attachmentTypeToWeightMap a.Ty
      · have hadopt : attachmentTypeToWeightMap cur < attachmentTypeToWeightMap a.Ty := by
          rw [hm] at hlt; omega
        refine ⟨[], a, rest, rfl, hOA, by rw [hm]; omega, ?_, ?_⟩
        · intro x hx
          exact absurd hx (List.not_mem_nil x)
        · rw [derivedOA_step a rest oa cur hOA, if_pos hadopt]
          exact derivedOA_no_adoption rest true a.Ty h1
      · push_neg at h1
        have hm2 : maxOAWeight (a :: rest) = maxOAWeight rest := by rw [hm]; omega
        by_cases hadopt : attachmentTypeToWeightMap cur < attachmentTypeToWeightMap a.Ty
        · obtain ⟨l, att, r, hsplit, hOA2, hmx, hfirst, hres⟩ := ih true a.Ty h1
          refine ⟨a :: l, att, r, by simp [hsplit], hOA2, by rw [hm2]; exact hmx, ?_, ?_⟩
          · intro x hx hxOA
            rcases List.mem_cons.mp hx with hxa | hxl
            · rw [hxa, hm2]; exact h1
            · rw [hm2]; exact hfirst x hxl hxOA
          · rw [derivedOA_step a rest oa cur hOA, if_pos hadopt]
            exact hres
        · push_neg at hadopt
          have hlt2 : attachmentTypeToWeightMap cur < maxOAWeight rest := by
            rw [hm2] at hlt; exact hlt
          obtain ⟨l, att, r, hsplit, hOA2, hmx, hfirst, hres⟩ := ih true cur hlt2
          refine ⟨a :: l, att, r, by simp [hsplit], hOA2, by rw [hm2]; exact hmx, ?_, ?_⟩
          · intro x hx hxOA
            rcases List.mem_cons.mp hx with hxa | hxl
            · rw [hxa, hm2]; omega
            · rw [hm2]; exact hfirst x hxl hxOA
          · rw [derivedOA_step a rest oa cur hOA, if_neg (by omega)]
            exact hres
    · have hm2 : maxOAWeight (a :: rest) = maxOAWeight rest := by
        simp [maxOAWeight, hOA]
      have hlt2 : attachmentTypeToWeightMap cur < maxOAWeight rest := by
        rw [hm2] at hlt; exact hlt
      obtain ⟨l, att, r, hsplit, hOA2, hmx, hfirst, hres⟩ := ih oa cur hlt2
      refine ⟨a :: l, att, r, by simp [hsplit], hOA2, by rw [hm2]; exact hmx, ?_, ?_⟩
      · intro x hx hxOA
        rcases List.mem_cons.mp hx with hxa | hxl
        · rw [hxa] at hxOA; exact absurd hxOA hOA
        · rw [hm2]; exact hfirst x hxl hxOA
      · rw [derivedOA_skip a rest oa cur hOA]
        exact hres

/-- Claim C4 amended: artudisOA is true iff some attachment has open_access
equal to "true".  highestLevel equals "missing" iff every open-access
attachment's type has weight 0 on the ordinal scale (the type "missing" and
any type not on the scale weigh 0); otherwise highestLevel is the type of
the first open-access attachment whose type attains the maximum weight among
the open-access attachments. -/
theorem derivedOA_characterization (atts : List AttachmentEntry) :
    ((derivedOA atts false "missing").1 = true ↔
      ∃ att ∈ atts, att.OpenAccess = "true") ∧
    ((derivedOA atts false "missing").2 = "missing" ↔
      ∀ att ∈ atts, att.OpenAccess = "true" →
        attachmentTypeToWeightMap att.Ty = 0) ∧
    (0 < maxOAWeight atts →
      ∃ l att r, atts = l ++ att :: r ∧ att.OpenAccess = "true" ∧
        attachmentTypeToWeightMap att.Ty = maxOAWeight atts ∧
        (∀ a ∈ l, a.OpenAccess = "true" →
          attachmentTypeToWeightMap a.Ty < maxOAWeight atts) ∧
        (derivedOA atts false "missing").2 = att.Ty) := by
  have hw0 : attachmentTypeToWeightMap "missing" = 0 := by decide
  refine ⟨derivedOA_fst_iff atts "missing", ?_, ?_⟩
  · rw [← maxOAWeight_eq_zero_iff]
    constructor
    · intro hres
      have := derivedOA_weight atts false "missing"
      rw [hres, hw0] at this
      omega
    · intro hz
      exact derivedOA_no_adoption atts false "missing" (by omega)
  · intro hpos
    exact derivedOA_first_attainer atts false "missing" (by omega)

theorem derivedOA_characterization_w :
    ∃ l att r, c4WAtts = l ++ att :: r ∧ att.OpenAccess = "true" ∧
      attachmentTypeToWeightMap att.Ty = maxOAWeight c4WAtts ∧
      (∀ a ∈ l, a.OpenAccess = "true" →
        attachmentTypeToWeightMap a.Ty < maxOAWeight c4WAtts) ∧
      (derivedOA c4WAtts false "missing").2 = att.Ty :=
  (derivedOA_characterization c4WAtts).2.2 (by decide)

theorem goodTrace_acq {rest : List GateEvent}
    (h : GoodTrace (GateEvent.acquire :: rest)) : rest = [GateEvent.release] := by
  rcases h with h | h | h
  · simpa using h
  · simp at h
  · simp at h

theorem goodTrace_rel {rest : List GateEvent}
    (h : GoodTrace (GateEvent.release :: rest)) : rest = [] := by
  rcases h with h | h | h
  · simp at h
  · simpa using h
  · simp at h

theorem gateInv_step {N : Nat} {s s' : SemState} (hstep : SemStep N s s')
    (hinv : GateInv N s) : GateInv N s' := by
  cases hstep with
  | acq occ l r rest =>
    obtain ⟨hshape, hsum⟩ := hinv
    have hmem : (GateEvent.acquire :: rest) ∈ l ++ (GateEvent.acquire :: rest) :: r := by
      simp
    have hrest : rest = [GateEvent.release] := goodTrace_acq (hshape _ hmem)
    subst hrest
    have hbefore : inflight ⟨occ + 1, l ++ (GateEvent.acquire :: [GateEvent.release]) :: r⟩ =
        l.count [GateEvent.release] + r.count [GateEvent.release] := by
      simp [inflight, List.count_append, List.count_cons]
    have hafter : inflight ⟨occ, l ++ [GateEvent.release] :: r⟩ =
        l.count [GateEvent.release] + r.count [GateEvent.release] + 1 := by
      simp [inflight, List.count_append, List.count_cons]
      omega
    constructor
    · intro g hg
      rcases List.mem_append.mp hg with hl | hr2
      · exact hshape g (List.mem_append.mpr (Or.inl hl))
      · rcases List.mem_cons.mp hr2 with hgr | hgr
        · rw [hgr]; exact Or.inr (Or.inl rfl)
        · exact hshape g (List.mem_append.mpr (Or.inr (List.mem_cons_of_mem _ hgr)))
    · have hs : SemState.occ ⟨occ + 1, l ++ (GateEvent.acquire :: [GateEvent.release]) :: r⟩ = occ + 1 := rfl
      rw [hs, hbefore] at hsum
      show occ + inflight ⟨occ, l ++ [GateEvent.release] :: r⟩ = N
      rw [hafter]
      omega
  | rel occ l r rest hlt =>
    obtain ⟨hshape, hsum⟩ := hinv
    have hmem : (GateEvent.release :: rest) ∈ l ++ (GateEvent.release :: rest) :: r := by
      simp
    have hrest : rest = [] := goodTrace_rel (hshape _ hmem)
    subst hrest
    have hbefore : inflight ⟨occ, l ++ [GateEvent.release] :: r⟩ =
        l.count [GateEvent.release] + r.count [GateEvent.release] + 1 := by
      simp [inflight, List.count_append, List.count_cons]
      omega
    have hafter : inflight ⟨occ + 1, l ++ [] :: r⟩ =
        l.count [GateEvent.release] + r.count [GateEvent.release] := by
      simp [inflight, List.count_append, List.count_cons]
    constructor
    · intro g hg
      rcases List.mem_append.mp hg with hl | hr2
      · exact hshape g (List.mem_append.mpr (Or.inl hl))
      · rcases List.mem_cons.mp hr2 with hgr | hgr
        · rw [hgr]; exact Or.inr (Or.inr rfl)
        · exact hshape g (List.mem_append.mpr (Or.inr (List.mem_cons_of_mem _ hgr)))
    · have hs : SemState.occ ⟨occ, l ++ [GateEvent.release] :: r⟩ = occ := rfl
      rw [hs, hbefore] at hsum
      show occ + 1 + inflight ⟨occ + 1, l ++ [] :: r⟩ = N
      rw [hafter]
      omega

theorem gateInv_reach {N M : Nat} {s : SemState} (h : SemReach N M s) :
    GateInv N s := by
  unfold SemReach at h
  induction h with
  | refl =>
    constructor
    · intro g hg
      rw [List.eq_of_mem_replicate hg]
      exact Or.inl rfl
    · simp [initSem, inflight, List.count_replicate]
  | tail _ hstep ih => exact gateInv_step hstep ih

/-- Claim C1: the admission gate never admits more than N concurrent lookups
and its permit count stays within bounds in every reachable interleaving of
the goroutines of one file's batch, and doAPIRequest performs exactly one
ticket receive followed by exactly one ticket send on each of its three exit
paths (transport error, decode error, success). -/
theorem gate_bounded_and_balanced (N M : Nat) (doi email : String)
    (http : String → HTTPOutcome) (s : SemState) (hs : SemReach N M s) :
    (doAPIRequest doi email http).2 = [GateEvent.acquire, GateEvent.release] ∧
    inflight s ≤ N ∧ s.occ ≤ N ∧ s.occ + inflight s = N := by
  have hinv := gateInv_reach hs
  have h2 := hinv.2
  refine ⟨?_, by omega, by omega, h2⟩
  unfold doAPIRequest
  cases http (requestURL doi email) with
  | getError msg => rfl
  | response status d =>
    cases d with
    | error msg => rfl
    | ok b => rfl

theorem gate_bounded_and_balanced_w :
    (doAPIRequest "10.1000/182" "a@b.c" httpGetErrW).2 =
      [GateEvent.acquire, GateEvent.release] ∧
    inflight (initSem 2 3) ≤ 2 ∧ (initSem 2 3).occ ≤ 2 ∧
    (initSem 2 3).occ + inflight (initSem 2 3) = 2 :=
  gate_bounded_and_balanced 2 3 "10.1000/182" "a@b.c" httpGetErrW (initSem 2 3)
    Relation.ReflTransGen.refl

/-- Claim C3: an APIResponse from doAPIRequest never has both error fields
non-empty; a non-empty transport error comes with empty status text and a
zero-valued body; whenever the HTTP call completed (in particular whenever
the decode error is non-empty) the status text is the response status; and
on full success both error fields are empty. -/
theorem apiresponse_error_fields (doi email : String)
    (http : String → HTTPOutcome) :
    ((doAPIRequest doi email http).1.GETError = "" ∨
      (doAPIRequest doi email http).1.JSONDecodeError = "") ∧
    ((doAPIRequest doi email http).1.GETError ≠ "" →
      (doAPIRequest doi email http).1.HTTPStatus = "" ∧
      (doAPIRequest doi email http).1.body = {}) ∧
    (∀ status d, http (requestURL doi email) = HTTPOutcome.response status d →
      (doAPIRequest doi email http).1.HTTPStatus = status) ∧
    (∀ status b,
      http (requestURL doi email) = HTTPOutcome.response status (Except.ok b) →
      (doAPIRequest doi email http).1.GETError = "" ∧
      (doAPIRequest doi email http).1.JSONDecodeError = "") := by
  unfold doAPIRequest
  cases ho : http (requestURL doi email) with
  | getError msg =>
    refine ⟨Or.inr rfl, fun _ => ⟨rfl, rfl⟩, ?_, ?_⟩
    · intro status d hd
      cases hd
    · intro status b hb
      cases hb
  | response status d =>
    cases d with
    | error msg =>
      refine ⟨Or.inl rfl, fun hc => absurd rfl hc, ?_, ?_⟩
      · intro status2 d2 hd
        cases hd
        rfl
      · intro status2 b hb
        cases hb
    | ok b =>
      refine ⟨Or.inl rfl, fun hc => absurd rfl hc, ?_, ?_⟩
      · intro status2 d2 hd
        cases hd
        rfl
      · intro status2 b2 hb
        cases hb
        exact ⟨rfl, rfl⟩

theorem apiresponse_error_fields_w :
    (doAPIRequest "10.1000/182" "a@b.c" httpGetErrW).1.HTTPStatus = "" ∧
    (doAPIRequest "10.1000/182" "a@b.c" httpGetErrW).1.body = {} :=
  (apiresponse_error_fields "10.1000/182" "a@b.c" httpGetErrW).2.1 (by decide)

/-- Claim C4 counterexample: with a single attachment marked open-access whose
type is "missing", artudisOA is true and highestLevel is "missing", so
"highestLevel equals missing iff no attachment is open-access" fails. -/
theorem derivedOA_missing_iff_fails :
    (derivedOA c4CexAtts false "missing").1 = true ∧
    (derivedOA c4CexAtts false "missing").2 = "missing" ∧
    ¬ (((derivedOA c4CexAtts false "missing").2 = "missing") ↔
        ¬ ∃ att ∈ c4CexAtts, att.OpenAccess = "true") := by
  refine ⟨by decide, by decide, by decide⟩

theorem collectAPIResponses_eq (lookup : String → APIResponse)
    (ids : List IdentifierEntry) :
    collectAPIResponses lookup ids =
      (ids.filter (fun i => decide (i.Scheme = "doi"))).map
        (fun i => lookup i.Value) := by
  induction ids with
  | nil => rfl
  | cons i rest ih =>
    by_cases h : i.Scheme = "doi"
    · simp [collectAPIResponses, List.filter_cons, h, ih]
    · simp [collectAPIResponses, List.filter_cons, h, ih]

theorem writeRows_all (rows : List (List String)) :
    ∀ n, writeRows (fun _ => true) rows n = (rows, true) := by
  induction rows with
  | nil => intro n; rfl
  | cons row rest ih => intro n; simp [writeRows, ih]

/-- Claim C2: a successfully parsed line with k identifier pairs of scheme
"doi" publishes one record whose APIResponses list positionally matches the
DOI identifiers in input order, and the writer emits exactly one CSV row per
APIResponse, hence exactly k rows; zero DOI identifiers give zero rows. -/
theorem doi_fanout_rows (parse : List Char → Option Publication)
    (lookup : String → APIResponse) (line : List Char) (pub : Publication)
    (h : parse line = some pub) :
    ∃ rec, processPublication parse lookup line = some rec ∧
      rec.APIResponses =
        (pub.Identifier.filter (fun i => decide (i.Scheme = "doi"))).map
          (fun i => lookup i.Value) ∧
      (recordRows rec).length =
        (pub.Identifier.filter (fun i => decide (i.Scheme = "doi"))).length ∧
      (writeRecords (fun _ => true) [rec] 0).1 = recordRows rec ∧
      (pub.Identifier.filter (fun i => decide (i.Scheme = "doi")) = [] →
        recordRows rec = []) := by
  refine ⟨{ toPublication := pub,
            APIResponses := collectAPIResponses lookup pub.Identifier },
    ?_, ?_, ?_, ?_, ?_⟩
  · simp [processPublication, h]
  · exact collectAPIResponses_eq lookup pub.Identifier
  · simp [recordRows, collectAPIResponses_eq]
  · simp [writeRecords, writeRows_all]
  · intro hz
    simp [recordRows, collectAPIResponses_eq, hz]

theorem doi_fanout_rows_w :
    ∃ rec, processPublication parseW lookupW [] = some rec ∧
      rec.APIResponses =
        (pubW.Identifier.filter (fun i => decide (i.Scheme = "doi"))).map
          (fun i => lookupW i.Value) ∧
      (recordRows rec).length =
        (pubW.Identifier.filter (fun i => decide (i.Scheme = "doi"))).length ∧
      (writeRecords (fun _ => true) [rec] 0).1 = recordRows rec ∧
      (pubW.Identifier.filter (fun i => decide (i.Scheme = "doi")) = [] →
        recordRows rec = []) :=
  doi_fanout_rows parseW lookupW [] pubW rfl

theorem filterMap_parse_filter (parse : List Char → Option Publication)
    (lookup : String → APIResponse) (lines : List (List Char)) :
    lines.filterMap (processPublication parse lookup) =
      (lines.filter (fun l => (parse l).isSome)).filterMap
        (processPublication parse lookup) := by
  induction lines with
  | nil => rfl
  | cons a t ih =>
    by_cases hp : (parse a).isSome
    · rcases Option.isSome_iff_exists.mp hp with ⟨pub, hpub⟩
      simp [List.filter_cons, hp, List.filterMap_cons, processPublication,
        hpub, ih]
    · have hnone : parse a = none := by
        rcases ho : parse a with _ | v
        · rfl
        · rw [ho] at hp; simp at hp
      simp [List.filter_cons, hp, List.filterMap_cons, processPublication,
        hnone, ih]

/-- Claim C7: a line whose parse fails publishes no record, and the CSV rows
of a file are exactly the rows produced from the well-formed lines alone:
dropping the malformed lines from the input leaves the output unchanged. -/
theorem malformed_line_isolated (parse : List Char → Option Publication)
    (lookup : String → APIResponse) (lines : List (List Char)) :
    (∀ line, parse line = none →
      processPublication parse lookup line = none) ∧
    pipelineRows parse lookup lines =
      pipelineRows parse lookup (lines.filter (fun l => (parse l).isSome)) := by
  constructor
  · intro line hl
    simp [processPublication, hl]
  · unfold pipelineRows pipelineRecords
    rw [filterMap_parse_filter]

theorem malformed_line_isolated_w :
    processPublication parseEmptyFailsW lookupW [] = none ∧
    pipelineRows parseEmptyFailsW lookupW c7WLines =
      pipelineRows parseEmptyFailsW lookupW
        (c7WLines.filter (fun l => (parseEmptyFailsW l).isSome)) :=
  ⟨(malformed_line_isolated parseEmptyFailsW lookupW c7WLines).1 [] (by decide),
   (malformed_line_isolated parseEmptyFailsW lookupW c7WLines).2⟩

theorem writeRows_cons (ok : Nat → Bool) (row : List String)
    (rest : List (List String)) (n : Nat) :
    writeRows ok (row :: rest) n =
      if ok n then
        (row :: (writeRows ok rest (n + 1)).1, (writeRows ok rest (n + 1)).2)
      else ([], false) := rfl

theorem writeRecords_cons (ok : Nat → Bool) (rec : Record)
    (rest : List Record) (n : Nat) :
    writeRecords ok (rec :: rest) n =
      if (writeRows ok (recordRows rec) n).2 then
        ((writeRows ok (recordRows rec) n).1 ++
          (writeRecords ok rest
            (n + (writeRows ok (recordRows rec) n).1.length)).1,
         (writeRecords ok rest
            (n + (writeRows ok (recordRows rec) n).1.length)).2)
      else ((writeRows ok (recordRows rec) n).1, false) := rfl

theorem writeRows_true (ok : Nat → Bool) (rows : List (List String)) :
    ∀ n, (writeRows ok rows n).2 = true → (writeRows ok rows n).1 = rows := by
  induction rows with
  | nil => intro n _; rfl
  | cons row rest ih =>
    intro n h
    by_cases hok : ok n
    · simp only [writeRows, hok, if_true] at h ⊢
      rw [ih (n + 1) h]
    · simp [writeRows, hok] at h

theorem writeRows_append (ok : Nat → Bool) (xs ys : List (List String)) :
    ∀ n, writeRows ok (xs ++ ys) n =
      if (writeRows ok xs n).2 then
        ((writeRows ok xs n).1 ++ (writeRows ok ys (n + xs.length)).1,
         (writeRows ok ys (n + xs.length)).2)
      else ((writeRows ok xs n).1, false) := by
  induction xs with
  | nil => intro n; simp [writeRows]
  | cons x xs ih =>
    intro n
    by_cases hok : ok n
    · have harith : n + (x :: xs).length = n + 1 + xs.length := by
        simp [List.length_cons]
        omega
      simp only [List.cons_append, writeRows_cons, if_pos hok, ih (n + 1),
        harith]
      by_cases h2 : (writeRows ok xs (n + 1)).2
      · simp [h2]
      · simp [h2]
    · simp [writeRows_cons, hok]

theorem writeRecords_eq_flat (ok : Nat → Bool) (records : List Record) :
    ∀ n, writeRecords ok records n =
      writeRows ok (List.flatten (records.map recordRows)) n := by
  induction records with
  | nil => intro n; rfl
  | cons rec rest ih =>
    intro n
    rw [show List.flatten ((rec :: rest).map recordRows) =
        recordRows rec ++ List.flatten (rest.map recordRows) from by simp]
    rw [writeRows_append, writeRecords_cons]
    by_cases h2 : (writeRows ok (recordRows rec) n).2
    · have hfull := writeRows_true ok (recordRows rec) n h2
      rw [if_pos h2, if_pos h2, hfull, ih]
    · rw [if_neg h2, if_neg h2]

theorem writeRows_stops (ok : Nat → Bool) (rows : List (List String)) :
    ∀ n k, (∀ j, j < k → ok (n + j) = true) → ok (n + k) = false →
      (writeRows ok rows n).1 = rows.take k := by
  induction rows with
  | nil => intro n k _ _; simp [writeRows]
  | cons row rest ih =>
    intro n k hbefore hfail
    cases k with
    | zero =>
      have h0 : ok n = false := by simpa using hfail
      simp [writeRows, h0]
    | succ k2 =>
      have hok : ok n = true := by
        have := hbefore 0 (Nat.succ_pos k2)
        simpa using this
      have hrec := ih (n + 1) k2
        (fun j hj => by
          have h1 := hbefore (j + 1) (by omega)
          have h2 : n + 1 + j = n + (j + 1) := by omega
          rw [h2]; exact h1)
        (by
          have h2 : n + 1 + k2 = n + (k2 + 1) := by omega
          rw [h2]; exact hfail)
      simp [writeRows, hok, hrec]

theorem writeRows_pre (ok : Nat → Bool) (rows : List (List String)) :
    ∀ n, ∃ rest2, (writeRows ok rows n).1 ++ rest2 = rows := by
  induction rows with
  | nil => intro n; exact ⟨[], rfl⟩
  | cons row rest ih =>
    intro n
    by_cases hok : ok n
    · obtain ⟨r2, hr2⟩ := ih (n + 1)
      exact ⟨r2, by simp [writeRows, hok, hr2]⟩
    · exact ⟨row :: rest, by simp [writeRows, hok]⟩

theorem writerConsumed_of_success (ok : Nat → Bool) (records : List Record) :
    ∀ n, (writeRecords ok records n).2 = true →
      writerConsumed ok records n = records.length := by
  induction records with
  | nil => intro n _; rfl
  | cons rec rest ih =>
    intro n h
    by_cases h2 : (writeRows ok (recordRows rec) n).2
    · rw [writeRecords_cons, if_pos h2] at h
      rw [show writerConsumed ok (rec :: rest) n =
          writerConsumed ok rest
            (n + (writeRows ok (recordRows rec) n).1.length) + 1 from by
        simp [writerConsumed, h2]]
      rw [ih _ h]
      rfl
    · rw [writeRecords_cons, if_neg h2] at h
      exact absurd h (by simp)

theorem runBatch_complete_iff (files : List (List Record × (Nat → Bool))) :
    (runBatch files).2 = true ↔
      ∀ f ∈ files, writerConsumed f.2 f.1 0 = f.1.length := by
  induction files with
  | nil => simp [runBatch]
  | cons f rest ih =>
    by_cases hc : writerConsumed f.2 f.1 0 = f.1.length
    · simp [runBatch, hc, ih]
    · have hfalse : (runBatch (f :: rest)).2 = false := by
        simp [runBatch, hc]
      rw [hfalse]
      constructor
      · intro h
        cases h
      · intro hall
        exact absurd (hall f (List.mem_cons_self _ _)) hc

theorem runBatch_outputs (files : List (List Record × (Nat → Bool)))
    (hall : ∀ f ∈ files, writerConsumed f.2 f.1 0 = f.1.length) :
    (runBatch files).1 = files.map (fun f => (writeRecords f.2 f.1 0).1) := by
  induction files with
  | nil => rfl
  | cons f rest ih =>
    have hf := hall f (List.mem_cons_self _ _)
    simp [runBatch, hf, ih (fun g hg => hall g (List.mem_cons_of_mem _ hg))]

/-- Claim C8 counterexample: in a batch of two files where the first file has
two records and the write of the second CSV row fails, the writer returns
with the second record still unreceived, its goroutine stays blocked sending
on the unbuffered output channel, processFile never returns, and the second
file is never processed — refuting "processing of the remaining files in the
batch continues". -/
theorem writer_error_hangs_batch :
    (runBatch c8CexFiles).2 = false ∧ (runBatch c8CexFiles).1.length = 1 ∧
    c8CexFiles.length = 2 := by
  refine ⟨by decide, by decide, by decide⟩

/-- Claim C8 amended: on a failing row write the writer logs, stops writing
further rows of that file (rows written before the failure remain: the
output is the prefix of the file's row stream up to the first failing
write) and returns without crashing the process; the batch then continues
to the remaining files iff the writer had received every record of the
file (an error-free writer always has; so has one whose failing write hit
the last record): otherwise the unpublished records' goroutines block
forever on the unbuffered output channel and processFile never returns, so
the remaining files are never processed. -/
theorem writer_error_semantics (ok : Nat → Bool) (records : List Record)
    (files : List (List Record × (Nat → Bool))) :
    (writeRecords ok records 0).1 =
      (writeRows ok (List.flatten (records.map recordRows)) 0).1 ∧
    (∃ rest2, (writeRecords ok records 0).1 ++ rest2 =
      List.flatten (records.map recordRows)) ∧
    (∀ k, (∀ j, j < k → ok j = true) → ok k = false →
      (writeRecords ok records 0).1 =
        (List.flatten (records.map recordRows)).take k) ∧
    ((writeRecords ok records 0).2 = true →
      writerConsumed ok records 0 = records.length) ∧
    ((runBatch files).2 = true ↔
      ∀ f ∈ files, writerConsumed f.2 f.1 0 = f.1.length) ∧
    ((∀ f ∈ files, writerConsumed f.2 f.1 0 = f.1.length) →
      (runBatch files).1 =
        files.map (fun f => (writeRecords f.2 f.1 0).1)) := by
  have hflat := writeRecords_eq_flat ok records 0
  refine ⟨by rw [hflat], ?_, ?_, writerConsumed_of_success ok records 0,
    runBatch_complete_iff files, runBatch_outputs files⟩
  · rw [hflat]
    exact writeRows_pre ok _ 0
  · intro k hb hf
    rw [hflat]
    exact writeRows_stops ok _ 0 k
      (fun j hj => by simpa using hb j hj) (by simpa using hf)

theorem not_p_of_mem_splitOnP {α : Type} (p : α → Bool) (xs : List α) :
    ∀ l ∈ xs.splitOnP p, ∀ y ∈ l, ¬ p y = true := by
  induction xs with
  | nil =>
    intro l hl y hy
    rw [List.splitOnP_nil] at hl
    rcases List.mem_cons.mp hl with h | h
    · rw [h] at hy
      simp at hy
    · simp at h
  | cons x xs ih =>
    intro l hl y hy
    rw [List.splitOnP_cons] at hl
    by_cases hx : p x
    · rw [if_pos hx] at hl
      rcases List.mem_cons.mp hl with h | h
      · rw [h] at hy
        simp at hy
      · exact ih l h y hy
    · rw [if_neg hx] at hl
      rcases hsp : xs.splitOnP p with _ | ⟨hd, tl⟩
      · exact absurd hsp (List.splitOnP_ne_nil p xs)
      · rw [hsp] at hl
        simp only [List.modifyHead] at hl
        rcases List.mem_cons.mp hl with h | h
        · rw [h] at hy
          rcases List.mem_cons.mp hy with hy1 | hy2
          · rw [hy1]
            exact hx
          · exact ih hd (by rw [hsp]; exact List.mem_cons_self _ _) y hy2
        · exact ih l (by rw [hsp]; exact List.mem_cons_of_mem _ h) y hy

theorem not_mem_of_mem_splitOn {xs l : List Char} {c : Char}
    (hl : l ∈ xs.splitOn c) : c ∉ l := by
  intro hc
  have hm : l ∈ xs.splitOnP (· == c) := by
    simpa [List.splitOn] using hl
  have := not_p_of_mem_splitOnP (· == c) xs l hm c hc
  simp at this

theorem SHERPAURI_len : SHERPAURI.length = 35 := by decide

theorem comma_not_mem_SHERPAURI : ¬ ',' ∈ SHERPAURI := by decide

theorem sherpaLoop_link_shape (segs : List (List Char)) :
    ∀ links, (∀ seg ∈ segs, ',' ∉ seg) → sherpaLoop segs = some links →
      ∀ l ∈ links, l.length = 45 ∧ ',' ∉ l := by
  induction segs with
  | nil =>
    intro links _ h l hl
    rw [show sherpaLoop [] = some [] from rfl] at h
    rw [← Option.some.inj h] at hl
    simp at hl
  | cons issn rest ih =>
    intro links hsegs h l hl
    have hrest : ∀ seg ∈ rest, ',' ∉ seg :=
      fun seg hs => hsegs seg (List.mem_cons_of_mem _ hs)
    by_cases he : issn = []
    · rw [show sherpaLoop (issn :: rest) = sherpaLoop rest from by
        simp [sherpaLoop, he]] at h
      exact ih links hrest h l hl
    · by_cases h4 : 4 < issn.length
      · by_cases hc1 : issn[4] = '-' ∧ issn.length = 9
        · rw [show sherpaLoop (issn :: rest) = (sherpaLoop rest).map
              (fun ls => (SHERPAURI ++ issn ++ ['/']) :: ls) from by
            simp [sherpaLoop, he, h4, hc1]] at h
          rcases ho : sherpaLoop rest with _ | ls2
          · rw [ho] at h
            exact Option.noConfusion h
          · rw [ho] at h
            simp only [Option.map_some'] at h
            rw [← Option.some.inj h] at hl
            rcases List.mem_cons.mp hl with h1 | h1
            · constructor
              · rw [h1]
                simp only [List.length_append, SHERPAURI_len, hc1.2,
                  List.length_cons, List.length_nil]
              · rw [h1]
                intro hcm
                simp only [List.mem_append, List.mem_cons] at hcm
                rcases hcm with (hcm | hcm) | hcm
                · exact comma_not_mem_SHERPAURI hcm
                · exact hsegs issn (List.mem_cons_self _ _) hcm
                · simp at hcm
            · exact ih ls2 hrest ho l h1
        · by_cases hc2 : issn.length = 8
          · rw [show sherpaLoop (issn :: rest) = (sherpaLoop rest).map
                (fun ls => (SHERPAURI ++ issn.take 4 ++
                  '-' :: ((issn.drop 4).take 4 ++ ['/'])) :: ls) from by
              simp [sherpaLoop, he, h4, hc1, hc2]] at h
            rcases ho : sherpaLoop rest with _ | ls2
            · rw [ho] at h
              exact Option.noConfusion h
            · rw [ho] at h
              simp only [Option.map_some'] at h
              rw [← Option.some.inj h] at hl
              rcases List.mem_cons.mp hl with h1 | h1
              · constructor
                · rw [h1]
                  simp only [List.length_append, SHERPAURI_len,
                    List.length_cons, List.length_take, List.length_drop,
                    List.length_nil, hc2]
                  omega
                · rw [h1]
                  intro hcm
                  simp only [List.mem_append, List.mem_cons] at hcm
                  rcases hcm with (hcm | hcm) | hcm | hcm | hcm | hcm
                  · exact comma_not_mem_SHERPAURI hcm
                  · exact hsegs issn (List.mem_cons_self _ _)
                      (List.take_subset 4 issn hcm)
                  · simp at hcm
                  · exact hsegs issn (List.mem_cons_self _ _)
                      (List.drop_subset 4 issn (List.take_subset 4 _ hcm))
                  · simp at hcm
                  · simp at hcm
              · exact ih ls2 hrest ho l h1
          · rw [show sherpaLoop (issn :: rest) = sherpaLoop rest from by
              simp [sherpaLoop, he, h4, hc1, hc2]] at h
            exact ih links hrest h l hl
      · rw [show sherpaLoop (issn :: rest) = none from by
          simp [sherpaLoop, he, h4]] at h
        exact absurd h (by simp)

theorem sherpaLoop_all45 (segs : List (List Char))
    (h : ∀ seg ∈ segs, seg.length = 45) :
    sherpaLoop segs = some [] := by
  induction segs with
  | nil => rfl
  | cons issn rest ih =>
    have h45 : issn.length = 45 := h issn (List.mem_cons_self _ _)
    have he : ¬ issn = [] := by
      intro hh
      rw [hh] at h45
      simp at h45
    have h4 : 4 < issn.length := by omega
    have hc1 : ¬ (issn[4] = '-' ∧ issn.length = 9) := by
      rintro ⟨_, h9⟩
      omega
    have hc2 : ¬ issn.length = 8 := by omega
    simp [sherpaLoop, he, h4, hc1, hc2,
      ih (fun seg hs => h seg (List.mem_cons_of_mem _ hs))]

theorem sherpaLink_collapse (s t : List Char) (h : makeSherpaLink s = some t)
    (ht : t ≠ []) : makeSherpaLink t = some [] := by
  by_cases hs : s = []
  · rw [hs] at h
    rw [show makeSherpaLink [] = some [] from rfl] at h
    exact absurd (Option.some.inj h).symm ht
  · rw [makeSherpaLink, if_neg hs] at h
    rcases ho : sherpaLoop (s.splitOn ',') with _ | links
    · rw [ho] at h
      exact Option.noConfusion h
    · rw [ho] at h
      simp only [Option.map_some'] at h
      have hint : [','].intercalate links = t := Option.some.inj h
      have hsegs : ∀ seg ∈ s.splitOn ',', ',' ∉ seg :=
        fun seg hs2 => not_mem_of_mem_splitOn hs2
      have hshape := sherpaLoop_link_shape (s.splitOn ',') links hsegs ho
      have hlinks_ne : links ≠ [] := by
        intro hnil
        rw [hnil] at hint
        rw [show [','].intercalate ([] : List (List Char)) = [] from rfl] at hint
        exact ht hint.symm
      have hx : ∀ l ∈ links, ',' ∉ l := fun l hl => (hshape l hl).2
      have hsplit : t.splitOn ',' = links := by
        rw [← hint]
        exact List.splitOn_intercalate links ',' hx hlinks_ne
      rw [makeSherpaLink, if_neg ht, hsplit,
        sherpaLoop_all45 links (fun l hl => (hshape l hl).1)]
      rfl

/-- Claim C6 amended: makeSherpaLink is idempotent exactly at the inputs it
maps to the empty string: whenever makeSherpaLink s returns t, applying it
again returns t itself iff t is empty, and for non-empty t the second
application collapses to the empty string (each produced link is a 45-byte
URL that matches neither the hyphenated-9 nor the length-8 segment shape). -/
theorem sherpaLink_idempotent_iff_empty (s t : List Char)
    (h : makeSherpaLink s = some t) :
    (makeSherpaLink t = some t ↔ t = []) ∧
    (t ≠ [] → makeSherpaLink t = some []) := by
  constructor
  · constructor
    · intro hidem
      by_contra hne
      have hcol := sherpaLink_collapse s t h hne
      have h2 : some ([] : List Char) = some t := by rw [← hidem, hcol]
      exact hne (Option.some.inj h2).symm
    · intro hemp
      rw [hemp]
      rfl
  · intro hne
    exact sherpaLink_collapse s t h hne

theorem sherpaLink_idempotent_iff_empty_w :
    (makeSherpaLink sherpaLinkEx = some sherpaLinkEx ↔ sherpaLinkEx = []) ∧
    makeSherpaLink sherpaLinkEx = some [] :=
  ⟨(sherpaLink_idempotent_iff_empty sherpaIssnEx sherpaLinkEx (by decide)).1,
   (sherpaLink_idempotent_iff_empty sherpaIssnEx sherpaLinkEx (by decide)).2
     (by decide)⟩

theorem writer_error_semantics_w :
    (writeRecords okW [recW] 0).1 =
      (List.flatten ([recW].map recordRows)).take 1 ∧
    (runBatch goodFilesW).1 =
      goodFilesW.map (fun f => (writeRecords f.2 f.1 0).1) :=
  ⟨(writer_error_semantics okW [recW] goodFilesW).2.2.1 1
      (fun j hj => by
        have hj0 : j = 0 := by omega
        rw [hj0]; rfl)
      (by rfl),
   (writer_error_semantics okW [recW] goodFilesW).2.2.2.2.2 (by decide)⟩

end Oadoi
